import Mathlib

/-!
Verification of the whiteboard repository's real-time collaboration core.

The socket server (pages/api/socket.ts) is embedded as a pure step
function over an association-list room registry plus a per-connection
session record; JavaScript numbers are modelled as rationals.  The
client helpers `normalizePoint` / `denormalizePoint`
(components/AutoDraw.tsx) and the heuristic shape scorer `predict`
(hooks/useShapeAI.ts) are embedded as pure functions; `Math.exp` is
modelled as an abstract function parameter.
-/

namespace Whiteboard

/-- The wire type NPoint of socket.ts: `{ nx:number; ny:number; t:number }`. -/
structure NPoint where
  nx : ℚ
  ny : ℚ
  t : ℚ
deriving DecidableEq, Repr

/-- The wire type Stroke of socket.ts:
`{ id:string; points:NPoint[]; color:string; size:number; owner?:string }`. -/
structure Stroke where
  id : String
  points : List NPoint
  color : String
  size : ℚ
  owner : Option String
deriving DecidableEq, Repr

/-- The type RoomState of socket.ts: `{ strokes: Stroke[] }`. -/
structure RoomState where
  strokes : List Stroke
deriving DecidableEq, Repr

/-- The process-wide `rooms` map (`Map<string, RoomState>`), embedded as an
association list in insertion order. -/
abbrev Rooms := List (String × RoomState)

/-- Lookup in the `rooms` map (`rooms.get(room)`). -/
def getRoom : Rooms → String → Option RoomState
  | [], _ => none
  | (k, v) :: rest, r => if k = r then some v else getRoom rest r

/-- Update in the `rooms` map (`rooms.set(room, state)`): replaces the entry
in place if the key is present, otherwise appends it  (JavaScript Map
keeps insertion order). -/
def setRoom : Rooms → String → RoomState → Rooms
  | [], r, v => [(r, v)]
  | (k, w) :: rest, r, v =>
      if k = r then (k, v) :: rest else (k, w) :: setRoom rest r v

/-- One connection's server-side session: the socket id and the handler's
`let roomId: string | null = null` variable. -/
structure Session where
  sid : String
  roomId : Option String
deriving DecidableEq, Repr

/-- Payload of a `cursor` message (spread verbatim into the relay). -/
structure CursorData where
  nx : ℚ
  ny : ℚ
  color : String
deriving DecidableEq, Repr

/-- The client-to-server message vocabulary of socket.ts. The
`stroke_append` wire payload is `{ room, point }`: it carries no stroke
identifier. -/
inductive Msg where
  | joinRoom (room : String)
  | cursor (payload : CursorData)
  | strokeStart (room : String) (stroke : Stroke)
  | strokeAppend (room : String) (point : NPoint)
  | strokeEnd (room : String)
  | clear (room : String)
  | undo (room : String)
deriving DecidableEq, Repr

/-- Server-to-client messages emitted by the handlers. -/
inductive WireOut where
  | state (st : RoomState)
  | userJoined (id : String)
  | cursorOut (id : String) (payload : CursorData)
  | strokeStartOut (id : String) (stroke : Stroke)
  | strokeAppendOut (id : String) (point : NPoint)
  | strokeEndOut (id : String)
  | clearOut
  | undoOut
deriving DecidableEq, Repr

/-- Recipient set of an emitted message: `socket.emit` (the sender only),
`socket.to(room).emit` (every member of the room except the sender), or
`io.to(room).emit` (every member of the room including the sender). -/
inductive Target where
  | sender
  | others (room : String)
  | all (room : String)
deriving DecidableEq, Repr

/-- Result of running one handler: the updated `rooms` map, the updated
session, and the emitted messages in order. -/
structure StepResult where
  rooms : Rooms
  sess : Session
  out : List (Target × WireOut)
deriving DecidableEq, Repr

/-- The `stroke_append` body `const last = state.strokes[state.strokes.length - 1];
if (last) last.points.push(point)`: pushes the point onto the last stroke of
the list, whichever stroke that is; no-op on an empty list. -/
def appendToLast : List Stroke → NPoint → List Stroke
  | [], _ => []
  | [s], p => [{ s with points := s.points ++ [p] }]
  | s :: rest, p => s :: appendToLast rest p

/-- One message handled by the socket.ts connection handlers, as a pure
function of the `rooms` map and the connection's session. -/
def step (rooms : Rooms) (sess : Session) : Msg → StepResult
  | .joinRoom room =>
      let state := (getRoom rooms room).getD ⟨[]⟩
      { rooms := setRoom rooms room state
        sess := { sess with roomId := some room }
        out := [(.sender, .state state), (.others room, .userJoined sess.sid)] }
  | .cursor payload =>
      match sess.roomId with
      | none => ⟨rooms, sess, []⟩
      | some r => ⟨rooms, sess, [(.others r, .cursorOut sess.sid payload)]⟩
  | .strokeStart room stroke =>
      let state := (getRoom rooms room).getD ⟨[]⟩
      { rooms := setRoom rooms room ⟨state.strokes ++ [stroke]⟩
        sess := { sess with roomId := some room }
        out := [(.others room, .strokeStartOut sess.sid stroke)] }
  | .strokeAppend _room point =>
      match sess.roomId with
      | none => ⟨rooms, sess, []⟩
      | some r =>
        match getRoom rooms r with
        | none => ⟨rooms, sess, []⟩
        | some state =>
            ⟨setRoom rooms r ⟨appendToLast state.strokes point⟩, sess,
              [(.others r, .strokeAppendOut sess.sid point)]⟩
  | .strokeEnd _room =>
      match sess.roomId with
      | none => ⟨rooms, sess, []⟩
      | some r => ⟨rooms, sess, [(.others r, .strokeEndOut sess.sid)]⟩
  | .clear _room =>
      match sess.roomId with
      | none => ⟨rooms, sess, []⟩
      | some r =>
        let rooms1 :=
          match getRoom rooms r with
          | none => rooms
          | some _ => setRoom rooms r ⟨[]⟩
        ⟨rooms1, sess, [(.all r, .clearOut)]⟩
  | .undo _room =>
      match sess.roomId with
      | none => ⟨rooms, sess, []⟩
      | some r =>
        match getRoom rooms r with
        | none => ⟨rooms, sess, []⟩
        | some state =>
            ⟨setRoom rooms r ⟨state.strokes.dropLast⟩, sess,
              [(.all r, .undoOut)]⟩

/-- Apply a sequence of messages, each tagged with the session handling it,
threading only the `rooms` map (each event records the sender's session as
it stood when the event arrived). -/
def applyEvents : Rooms → List (Session × Msg) → Rooms
  | rooms, [] => rooms
  | rooms, (sess, m) :: rest => applyEvents (step rooms sess m).rooms rest

/-- A pixel-space point (`type Point` of AutoDraw.tsx). -/
structure Point where
  x : ℚ
  y : ℚ
  t : ℚ
deriving DecidableEq, Repr

/-- The canvas bounding rectangle returned by `getBoundingClientRect()`:
only `width` and `height` are read by the helpers. -/
structure Rect where
  width : ℚ
  height : ℚ
deriving DecidableEq, Repr

/-- The helper `normalizePoint` of AutoDraw.tsx: divides pixel coordinates
by the canvas rectangle's dimensions; a null canvas yields `(0, 0)`. -/
def normalizePoint (p : Point) (canvas : Option Rect) : NPoint :=
  match canvas with
  | none => ⟨0, 0, p.t⟩
  | some rect => ⟨p.x / rect.width, p.y / rect.height, p.t⟩

/-- The helper `denormalizePoint` of AutoDraw.tsx: multiplies normalized
coordinates by the canvas rectangle's dimensions; a null canvas yields
`(0, 0)`. -/
def denormalizePoint (p : NPoint) (canvas : Option Rect) : Point :=
  match canvas with
  | none => ⟨0, 0, p.t⟩
  | some rect => ⟨p.nx * rect.width, p.ny * rect.height, p.t⟩

/-- The type HeuristicPrediction of useShapeAI.ts:
`{ label: string; score: number }`. -/
structure HeuristicPrediction where
  label : String
  score : ℚ
deriving DecidableEq, Repr

/-- The helper `clamp01` of useShapeAI.ts: `Math.max(0, Math.min(1, x))`. -/
def clamp01 (x : ℚ) : ℚ := max 0 (min 1 x)

/-- The helper `closeness` of useShapeAI.ts:
`clamp01(Math.exp(-Math.pow((v - target) / (scale || 1), 2)))`, with
`Math.exp` passed in as the abstract function `e` (the `scale || 1`
falsy-guard replaces a zero scale by 1). -/
def closeness (e : ℚ → ℚ) (v target scale : ℚ) : ℚ :=
  clamp01 (e (-(((v - target) / (if scale = 0 then 1 else scale)) ^ 2)))

/-- Insert a prediction into a list already sorted by non-increasing score,
after every element whose score is at least as large.  Folding this over
the score list reproduces the stable descending sort performed by
`.sort((a, b) => b.score - a.score)`. -/
def insertDesc (p : HeuristicPrediction) :
    List HeuristicPrediction → List HeuristicPrediction
  | [] => [p]
  | q :: rest => if q.score < p.score then p :: q :: rest else q :: insertDesc p rest

/-- Stable sort by non-increasing score
(`.sort((a, b) => b.score - a.score)` of useShapeAI.ts). -/
def sortDesc (l : List HeuristicPrediction) : List HeuristicPrediction :=
  l.foldl (fun acc p => insertDesc p acc) []

/-- The six raw scores of `predict` in useShapeAI.ts, in the insertion
order of the record `s` (circle, rectangle, triangle, star, heart, cloud),
as a function of the five destructured features
`[corners, circ, ar, sym, lengthNorm]` and the abstract `Math.exp`. -/
def rawScores (e : ℚ → ℚ) (corners circ ar sym _lengthNorm : ℚ) :
    List HeuristicPrediction :=
  [ ⟨"circle", clamp01 (circ * (1 - corners / 8))⟩,
    ⟨"rectangle", closeness e corners 4 4 * closeness e ar 1 (6 / 10)⟩,
    ⟨"triangle", closeness e corners 3 (35 / 10)⟩,
    ⟨"star", clamp01 (max 0 (corners - 6) / 6 * (1 - circ * (1 / 2)))⟩,
    ⟨"heart", clamp01 (sym * (1 - |ar - 1|) *
        (if 2 ≤ corners ∧ corners ≤ 6 then 1 else 3 / 10))⟩,
    ⟨"cloud", clamp01 (circ * min (corners / 10) 1)⟩ ]

/-- The function `predict` of useShapeAI.ts: computes the six heuristic
scores, sorts them by non-increasing score, and keeps the first `topK`
(`.slice(0, topK)`).  `Math.exp` is the abstract parameter `e`; the five
feature-vector components are passed destructured. -/
def predict (e : ℚ → ℚ) (corners circ ar sym lengthNorm : ℚ)
    (topK : ℕ) : List HeuristicPrediction :=
  (sortDesc (rawScores e corners circ ar sym lengthNorm)).take topK

/-! Helper lemmas about the association-list room registry. -/

theorem getRoom_setRoom (rooms : Rooms) (r : String) (v : RoomState) :
    getRoom (setRoom rooms r v) r = some v := by
  induction rooms with
  | nil => simp [setRoom, getRoom]
  | cons kv rest ih =>
      obtain ⟨k, w⟩ := kv
      by_cases h : k = r <;> simp [setRoom, getRoom, h, ih]

theorem setRoom_eq_self (rooms : Rooms) (r : String) (v : RoomState)
    (h : getRoom rooms r = some v) : setRoom rooms r v = rooms := by
  induction rooms with
  | nil => simp [getRoom] at h
  | cons kv rest ih =>
      obtain ⟨k, w⟩ := kv
      by_cases hk : k = r
      · simp [getRoom, hk] at h
        simp [setRoom, hk, h]
      · simp [getRoom, hk] at h
        simp [setRoom, hk, ih h]

/-! Concrete strokes used by the counterexample scenarios. -/

/-- Session A's open stroke in the concurrent-strokes scenario. -/
def strokeA : Stroke := ⟨"sA", [⟨0, 0, 0⟩], "red", 2, some "A"⟩

/-- Session B's open stroke in the concurrent-strokes scenario. -/
def strokeB : Stroke := ⟨"sB", [⟨1, 1, 1⟩], "blue", 2, some "B"⟩

/-- The point session A appends, intended for its own stroke `sA`. -/
def pointA1 : NPoint := ⟨1, 0, 2⟩

/-- C1 (code bug): with two concurrently open strokes from different
sessions in room R — A's `sA` started first, B's `sB` started second —
session A's subsequent append lands on `sB` (the last stroke of the
array), not on A's own stroke `sA`: the handler keys the append on the
last array position, and the `stroke_append` wire payload carries no
stroke identifier at all to key it by. -/
theorem append_misroutes_to_last_stroke :
    getRoom
      (step
        (step
          (step [] ⟨"A", none⟩ (.strokeStart "R" strokeA)).rooms
          ⟨"B", none⟩ (.strokeStart "R" strokeB)).rooms
        ⟨"A", some "R"⟩ (.strokeAppend "R" pointA1)).rooms "R"
      = some ⟨[strokeA,
               ⟨"sB", [⟨1, 1, 1⟩, pointA1], "blue", 2, some "B"⟩]⟩ := by
  decide

/-- C2 (counterexample): a `stroke_start` whose stroke id `sA` is already
present in the room is not a no-op — the handler performs no duplicate
check and the room ends with two strokes carrying the same id. -/
theorem duplicate_start_not_noop :
    getRoom (step [("R", ⟨[strokeA]⟩)] ⟨"A", some "R"⟩
        (.strokeStart "R" strokeA)).rooms "R"
      = some ⟨[strokeA, strokeA]⟩
    ∧ (⟨[strokeA, strokeA]⟩ : RoomState) ≠ (⟨[strokeA]⟩ : RoomState) := by
  constructor
  · decide
  · decide

/-- C2 (amended): `stroke_start` unconditionally appends the new stroke to
the end of the room's stroke list — also when a stroke with the same id is
already present; when no stroke with that id exists this is the claimed
append at the end. -/
theorem start_always_appends (rooms : Rooms) (sess : Session)
    (room : String) (stroke : Stroke) :
    getRoom (step rooms sess (.strokeStart room stroke)).rooms room
      = some ⟨((getRoom rooms room).getD ⟨[]⟩).strokes ++ [stroke]⟩ := by
  simp [step, getRoom_setRoom]

/-- C3: after any sequence of events applied to the initially empty
registry, a join replies to the sender with a snapshot equal to the
registry's current state of that room, notifies the other members, and
leaves the room's stroke list exactly as it was before the join. -/
theorem join_snapshot_fidelity (evts : List (Session × Msg)) (sess : Session)
    (room : String) :
    (step (applyEvents [] evts) sess (.joinRoom room)).out
      = [(.sender, .state ((getRoom
            (step (applyEvents [] evts) sess (.joinRoom room)).rooms room).getD
            ⟨[]⟩)),
         (.others room, .userJoined sess.sid)]
    ∧ ((getRoom (step (applyEvents [] evts) sess (.joinRoom room)).rooms
          room).getD ⟨[]⟩).strokes
        = ((getRoom (applyEvents [] evts) room).getD ⟨[]⟩).strokes := by
  simp [step, getRoom_setRoom]

/-- C4: for a joined session, `undo` on a room whose stroke list is
`l ++ [x]` removes exactly the final stroke `x` and leaves the earlier
strokes `l` unchanged, regardless of which session owns `x`; on a room
with no strokes it leaves the registry unchanged. -/
theorem undo_removes_last (rooms : Rooms) (sess : Session) (r pr : String)
    (h : sess.roomId = some r) :
    (∀ l x, getRoom rooms r = some ⟨l ++ [x]⟩ →
        getRoom (step rooms sess (.undo pr)).rooms r = some ⟨l⟩)
    ∧ (getRoom rooms r = some ⟨[]⟩ →
        (step rooms sess (.undo pr)).rooms = rooms) := by
  constructor
  · intro l x hst
    simp [step, h, hst, getRoom_setRoom, List.dropLast_concat]
  · intro hst
    simp [step, h, hst, List.dropLast]
    exact setRoom_eq_self rooms r ⟨[]⟩ hst

/-- Concrete run of the undo handler: on room R holding strokes
[strokeA, strokeB], session A's `undo` leaves exactly [strokeA]; on an
empty room R, the registry is untouched. -/
theorem undo_removes_last_witness :
    getRoom (step [("R", ⟨[strokeA, strokeB]⟩)] ⟨"A", some "R"⟩
        (.undo "X")).rooms "R" = some ⟨[strokeA]⟩
    ∧ (step [("R", (⟨[]⟩ : RoomState))] ⟨"A", some "R"⟩ (.undo "X")).rooms
        = [("R", ⟨[]⟩)] :=
  ⟨(undo_removes_last [("R", ⟨[strokeA, strokeB]⟩)] ⟨"A", some "R"⟩ "R" "X"
      rfl).1 [strokeA] strokeB (by decide),
   (undo_removes_last [("R", ⟨[]⟩)] ⟨"A", some "R"⟩ "R" "X" rfl).2 (by decide)⟩

/-- C5: for a joined session whose room holds zero strokes, both `undo`
and `clear` leave the registry unchanged (and, being total functions,
raise no error); and `clear` on any room state leaves that room with an
empty stroke list. -/
theorem undo_clear_empty_noop (rooms : Rooms) (sess : Session) (r pr : String)
    (h : sess.roomId = some r) :
    (getRoom rooms r = some ⟨[]⟩ →
        (step rooms sess (.undo pr)).rooms = rooms
      ∧ (step rooms sess (.clear pr)).rooms = rooms)
    ∧ (∀ st, getRoom rooms r = some st →
        getRoom (step rooms sess (.clear pr)).rooms r = some ⟨[]⟩) := by
  constructor
  · intro hst
    constructor
    · simp [step, h, hst, List.dropLast]
      exact setRoom_eq_self rooms r ⟨[]⟩ hst
    · simp [step, h, hst]
      exact setRoom_eq_self rooms r ⟨[]⟩ hst
  · intro st hst
    simp [step, h, hst, getRoom_setRoom]

/-- Concrete runs of undo and clear on the empty room R: the registry is
unchanged, and clear on a room holding strokeA empties it. -/
theorem undo_clear_empty_noop_witness :
    ((step [("R", (⟨[]⟩ : RoomState))] ⟨"A", some "R"⟩ (.undo "X")).rooms
        = [("R", ⟨[]⟩)]
      ∧ (step [("R", (⟨[]⟩ : RoomState))] ⟨"A", some "R"⟩ (.clear "X")).rooms
        = [("R", ⟨[]⟩)])
    ∧ getRoom (step [("R", ⟨[strokeA]⟩)] ⟨"A", some "R"⟩
        (.clear "X")).rooms "R" = some ⟨[]⟩ :=
  ⟨(undo_clear_empty_noop [("R", ⟨[]⟩)] ⟨"A", some "R"⟩ "R" "X" rfl).1
      (by decide),
   (undo_clear_empty_noop [("R", ⟨[strokeA]⟩)] ⟨"A", some "R"⟩ "R" "X"
      rfl).2 ⟨[strokeA]⟩ (by decide)⟩

/-- C6: for a joined session whose room exists, the broadcast sets are:
`stroke_start`, `stroke_append`, `stroke_end` and `cursor` are relayed,
tagged with the sender's socket id, to the room members other than the
sender; `undo` and `clear` go to all members of the room including the
sender. -/
theorem broadcast_sets (rooms : Rooms) (sess : Session) (r : String)
    (st : RoomState) (h : sess.roomId = some r)
    (hst : getRoom rooms r = some st) (room' pr : String) (stroke : Stroke)
    (p : NPoint) (c : CursorData) :
    (step rooms sess (.strokeStart room' stroke)).out
        = [(.others room', .strokeStartOut sess.sid stroke)]
    ∧ (step rooms sess (.strokeAppend pr p)).out
        = [(.others r, .strokeAppendOut sess.sid p)]
    ∧ (step rooms sess (.strokeEnd pr)).out
        = [(.others r, .strokeEndOut sess.sid)]
    ∧ (step rooms sess (.cursor c)).out
        = [(.others r, .cursorOut sess.sid c)]
    ∧ (step rooms sess (.undo pr)).out = [(.all r, .undoOut)]
    ∧ (step rooms sess (.clear pr)).out = [(.all r, .clearOut)] := by
  refine ⟨?_, ?_, ?_, ?_, ?_, ?_⟩ <;> simp [step, h, hst]

/-- Concrete broadcast sets for session A joined to the existing room R:
stroke and cursor events go to the other members tagged with "A", undo
and clear go to all members of R. -/
theorem broadcast_sets_witness :
    (step [("R", ⟨[strokeA]⟩)] ⟨"A", some "R"⟩ (.strokeStart "R" strokeB)).out
        = [(.others "R", .strokeStartOut "A" strokeB)]
    ∧ (step [("R", ⟨[strokeA]⟩)] ⟨"A", some "R"⟩
          (.strokeAppend "X" pointA1)).out
        = [(.others "R", .strokeAppendOut "A" pointA1)]
    ∧ (step [("R", ⟨[strokeA]⟩)] ⟨"A", some "R"⟩ (.strokeEnd "X")).out
        = [(.others "R", .strokeEndOut "A")]
    ∧ (step [("R", ⟨[strokeA]⟩)] ⟨"A", some "R"⟩
          (.cursor ⟨0, 0, "red"⟩)).out
        = [(.others "R", .cursorOut "A" ⟨0, 0, "red"⟩)]
    ∧ (step [("R", ⟨[strokeA]⟩)] ⟨"A", some "R"⟩ (.undo "X")).out
        = [(.all "R", .undoOut)]
    ∧ (step [("R", ⟨[strokeA]⟩)] ⟨"A", some "R"⟩ (.clear "X")).out
        = [(.all "R", .clearOut)] :=
  broadcast_sets [("R", ⟨[strokeA]⟩)] ⟨"A", some "R"⟩ "R" ⟨[strokeA]⟩ rfl
    (by decide) "R" "X" strokeB pointA1 ⟨0, 0, "red"⟩

/-- C7: a session that has not joined any room handling `cursor`,
`stroke_append`, `stroke_end`, `undo` or `clear` leaves the registry and
the session unchanged and emits nothing — a silent no-op, with no error
and no connection teardown. -/
theorem unjoined_silent_noop (rooms : Rooms) (sess : Session)
    (h : sess.roomId = none) (c : CursorData) (p : NPoint) (pr : String) :
    step rooms sess (.cursor c) = ⟨rooms, sess, []⟩
    ∧ step rooms sess (.strokeAppend pr p) = ⟨rooms, sess, []⟩
    ∧ step rooms sess (.strokeEnd pr) = ⟨rooms, sess, []⟩
    ∧ step rooms sess (.undo pr) = ⟨rooms, sess, []⟩
    ∧ step rooms sess (.clear pr) = ⟨rooms, sess, []⟩ := by
  refine ⟨?_, ?_, ?_, ?_, ?_⟩ <;> simp [step, h]

/-- Concrete silent no-ops: the unjoined session A handling each of the
five room-scoped messages changes nothing and emits nothing. -/
theorem unjoined_silent_noop_witness :
    step [] ⟨"A", none⟩ (.cursor ⟨0, 0, "red"⟩) = ⟨[], ⟨"A", none⟩, []⟩
    ∧ step [] ⟨"A", none⟩ (.strokeAppend "R" pointA1) = ⟨[], ⟨"A", none⟩, []⟩
    ∧ step [] ⟨"A", none⟩ (.strokeEnd "R") = ⟨[], ⟨"A", none⟩, []⟩
    ∧ step [] ⟨"A", none⟩ (.undo "R") = ⟨[], ⟨"A", none⟩, []⟩
    ∧ step [] ⟨"A", none⟩ (.clear "R") = ⟨[], ⟨"A", none⟩, []⟩ :=
  unjoined_silent_noop [] ⟨"A", none⟩ rfl ⟨0, 0, "red"⟩ pointA1 "R"

/-- C10: the `stroke_append`, `stroke_end`, `undo` and `clear` handlers
ignore the `room` field of their payload entirely — the whole step result
is identical for any two payload room values — and none of the five
room-scoped handlers changes the session's tracked room, while `join_room`
and `stroke_start` set it to their payload room. -/
theorem payload_room_ignored (rooms : Rooms) (sess : Session)
    (r1 r2 : String) (p : NPoint) (c : CursorData) (room : String)
    (stroke : Stroke) :
    step rooms sess (.strokeAppend r1 p) = step rooms sess (.strokeAppend r2 p)
    ∧ step rooms sess (.strokeEnd r1) = step rooms sess (.strokeEnd r2)
    ∧ step rooms sess (.undo r1) = step rooms sess (.undo r2)
    ∧ step rooms sess (.clear r1) = step rooms sess (.clear r2)
    ∧ (step rooms sess (.strokeAppend r1 p)).sess = sess
    ∧ (step rooms sess (.strokeEnd r1)).sess = sess
    ∧ (step rooms sess (.undo r1)).sess = sess
    ∧ (step rooms sess (.clear r1)).sess = sess
    ∧ (step rooms sess (.cursor c)).sess = sess
    ∧ (step rooms sess (.joinRoom room)).sess.roomId = some room
    ∧ (step rooms sess (.strokeStart room stroke)).sess.roomId = some room := by
  cases hr : sess.roomId with
  | none =>
      refine ⟨?_, ?_, ?_, ?_, ?_, ?_, ?_, ?_, ?_, ?_, ?_⟩ <;> simp [step, hr]
  | some r =>
      refine ⟨?_, ?_, ?_, ?_, ?_, ?_, ?_, ?_, ?_, ?_, ?_⟩ <;>
        cases hst : getRoom rooms r <;> simp [step, hr, hst]

/-- C8: for a canvas rectangle with positive width and height,
denormalizing a normalized pixel point reproduces the original point
exactly (the embedding works over exact rationals, so the floating-point
tolerance of the claim is met with zero error), timestamp included. -/
theorem normalize_denormalize_roundtrip (p : Point) (rect : Rect)
    (hw : 0 < rect.width) (hh : 0 < rect.height) :
    denormalizePoint (normalizePoint p (some rect)) (some rect) = p := by
  cases p with
  | mk x y t =>
      simp only [normalizePoint, denormalizePoint, Point.mk.injEq]
      exact ⟨div_mul_cancel₀ x (ne_of_gt hw), div_mul_cancel₀ y (ne_of_gt hh),
        trivial⟩

/-- Concrete round trip: the pixel point (3, 4) at time 5 on a 2-by-3
canvas survives normalization and denormalization. -/
theorem normalize_denormalize_roundtrip_witness :
    (0 : ℚ) < 2 ∧ (0 : ℚ) < 3
    ∧ denormalizePoint (normalizePoint ⟨3, 4, 5⟩ (some ⟨2, 3⟩)) (some ⟨2, 3⟩)
        = ⟨3, 4, 5⟩ :=
  ⟨by norm_num, by norm_num,
    normalize_denormalize_roundtrip ⟨3, 4, 5⟩ ⟨2, 3⟩ (by norm_num) (by norm_num)⟩

/-! Helper lemmas for the shape scorer. -/

theorem clamp01_nonneg (x : ℚ) : 0 ≤ clamp01 x := le_max_left 0 _

theorem clamp01_le_one (x : ℚ) : clamp01 x ≤ 1 :=
  max_le (by norm_num) (min_le_left 1 x)

theorem rawScores_bounds (e : ℚ → ℚ) (corners circ ar sym lengthNorm : ℚ) :
    ∀ q ∈ rawScores e corners circ ar sym lengthNorm,
      0 ≤ q.score ∧ q.score ≤ 1 := by
  intro q hq
  simp [rawScores] at hq
  rcases hq with rfl | rfl | rfl | rfl | rfl | rfl
  · exact ⟨clamp01_nonneg _, clamp01_le_one _⟩
  · exact ⟨mul_nonneg (clamp01_nonneg _) (clamp01_nonneg _),
      mul_le_one₀ (clamp01_le_one _) (clamp01_nonneg _) (clamp01_le_one _)⟩
  · exact ⟨clamp01_nonneg _, clamp01_le_one _⟩
  · exact ⟨clamp01_nonneg _, clamp01_le_one _⟩
  · exact ⟨clamp01_nonneg _, clamp01_le_one _⟩
  · exact ⟨clamp01_nonneg _, clamp01_le_one _⟩

theorem mem_insertDesc (p q : HeuristicPrediction)
    (l : List HeuristicPrediction) :
    q ∈ insertDesc p l ↔ q = p ∨ q ∈ l := by
  induction l with
  | nil => simp [insertDesc]
  | cons r rest ih =>
      by_cases hr : r.score < p.score
      · simp [insertDesc, hr]
      · simp [insertDesc, hr, ih]
        tauto

theorem pairwise_insertDesc (p : HeuristicPrediction)
    (l : List HeuristicPrediction)
    (h : l.Pairwise fun a b => b.score ≤ a.score) :
    (insertDesc p l).Pairwise fun a b => b.score ≤ a.score := by
  induction l with
  | nil => simp [insertDesc]
  | cons r rest ih =>
      rw [List.pairwise_cons] at h
      by_cases hr : r.score < p.score
      · rw [insertDesc, if_pos hr, List.pairwise_cons]
        refine ⟨?_, List.pairwise_cons.mpr h⟩
        intro x hx
        rcases List.mem_cons.mp hx with rfl | hx
        · exact le_of_lt hr
        · exact le_trans (h.1 x hx) (le_of_lt hr)
      · rw [insertDesc, if_neg hr, List.pairwise_cons]
        refine ⟨?_, ih h.2⟩
        intro x hx
        rcases (mem_insertDesc p x rest).mp hx with rfl | hx
        · exact le_of_not_lt hr
        · exact h.1 x hx

theorem pairwise_foldl_insertDesc (l : List HeuristicPrediction) :
    ∀ acc, acc.Pairwise (fun a b => b.score ≤ a.score) →
      (l.foldl (fun a p => insertDesc p a) acc).Pairwise
        fun a b => b.score ≤ a.score := by
  induction l with
  | nil => intro acc h; simpa using h
  | cons p rest ih =>
      intro acc h
      exact ih _ (pairwise_insertDesc p acc h)

theorem sortDesc_pairwise (l : List HeuristicPrediction) :
    (sortDesc l).Pairwise fun a b => b.score ≤ a.score :=
  pairwise_foldl_insertDesc l [] List.Pairwise.nil

theorem mem_foldl_insertDesc (l : List HeuristicPrediction) :
    ∀ acc q, q ∈ l.foldl (fun a p => insertDesc p a) acc ↔
      q ∈ acc ∨ q ∈ l := by
  induction l with
  | nil => intro acc q; simp
  | cons p rest ih =>
      intro acc q
      rw [List.foldl_cons, ih, mem_insertDesc]
      simp
      tauto

theorem mem_sortDesc (l : List HeuristicPrediction) (q : HeuristicPrediction) :
    q ∈ sortDesc l ↔ q ∈ l := by
  rw [sortDesc, mem_foldl_insertDesc]
  simp

/-- C9: the shape scorer is deterministic (equal exponential function,
features and count give equal output), returns a list sorted by
non-increasing score, of length at most `topK`, with every returned score
in the interval [0, 1]. -/
theorem predict_properties (e : ℚ → ℚ)
    (corners circ ar sym lengthNorm : ℚ) (topK : ℕ) :
    (∀ (e₂ : ℚ → ℚ) (corners₂ circ₂ ar₂ sym₂ lengthNorm₂ : ℚ) (topK₂ : ℕ),
        e = e₂ → corners = corners₂ → circ = circ₂ → ar = ar₂ →
        sym = sym₂ → lengthNorm = lengthNorm₂ → topK = topK₂ →
        predict e corners circ ar sym lengthNorm topK
          = predict e₂ corners₂ circ₂ ar₂ sym₂ lengthNorm₂ topK₂)
    ∧ (predict e corners circ ar sym lengthNorm topK).Pairwise
        (fun a b => b.score ≤ a.score)
    ∧ (predict e corners circ ar sym lengthNorm topK).length ≤ topK
    ∧ ∀ q ∈ predict e corners circ ar sym lengthNorm topK,
        0 ≤ q.score ∧ q.score ≤ 1 := by
  refine ⟨?_, ?_, ?_, ?_⟩
  · intro e₂ c₂ ci₂ ar₂ sy₂ ln₂ k₂ h1 h2 h3 h4 h5 h6 h7
    subst h1; subst h2; subst h3; subst h4; subst h5; subst h6; subst h7
    rfl
  · exact List.Pairwise.sublist (List.take_sublist _ _) (sortDesc_pairwise _)
  · exact List.length_take_le _ _
  · intro q hq
    have hq1 : q ∈ sortDesc (rawScores e corners circ ar sym lengthNorm) :=
      (List.take_sublist _ _).subset hq
    exact rawScores_bounds e corners circ ar sym lengthNorm q
      ((mem_sortDesc _ q).mp hq1)

/-- Concrete run of the scorer: with `Math.exp` stubbed to the constant 0
and features (4, 1, 1, 1, 1), the heart score 1 is returned within the
top 3 and lies in [0, 1]. -/
theorem predict_properties_witness :
    ((⟨"heart", (1 : ℚ)⟩ : HeuristicPrediction)
        ∈ predict (fun _ => (0 : ℚ)) 4 1 1 1 1 3)
    ∧ (0 : ℚ) ≤ 1 ∧ (1 : ℚ) ≤ 1 := by
  have hmem : (⟨"heart", (1 : ℚ)⟩ : HeuristicPrediction)
      ∈ predict (fun _ => (0 : ℚ)) 4 1 1 1 1 3 := by
    norm_num [predict, rawScores, sortDesc, insertDesc, clamp01, closeness,
      min_def, max_def]
  have h := (predict_properties (fun _ => (0 : ℚ)) 4 1 1 1 1 3).2.2.2
    ⟨"heart", (1 : ℚ)⟩ hmem
  exact ⟨hmem, h.1, h.2⟩

end Whiteboard
